import Mathlib

/-!
Verification of the Data Ingestion API system.

`src/main.py` contains the configuration constants and the two enums
(`Priority`, `BatchStatus`).  The rest of the implementation (the identifier
batcher, the priority work queue, the rate-limited processor, the submit and
status endpoints, and the overall-status derivation) is referenced by the test
suite but absent from the source tree, so those components are modelled from
the specification, each such definition carrying a doc comment starting with
`Modelled from the spec:`.
-/

namespace Ingestion

/-- Configuration constant from src/main.py: `BATCH_SIZE = 3`. -/
def BATCH_SIZE : Nat := 3

/-- Configuration constant from src/main.py: `RATE_LIMIT_SECONDS = 5`. -/
def RATE_LIMIT_SECONDS : Nat := 5

/-- Configuration constant from src/main.py: `MAX_ID_VALUE = 10**9 + 7`. -/
def MAX_ID_VALUE : Nat := 10 ^ 9 + 7

/-- The `Priority` enum from src/main.py. -/
inductive Priority where
  | HIGH
  | MEDIUM
  | LOW
  deriving DecidableEq, Repr

/-- The underlying string value of each `Priority` member, exactly as assigned
in src/main.py (`HIGH = "HIGH"`, `MEDIUM = "MEDIUM"`, `LOW = "LOW"`). -/
def Priority.value : Priority → String
  | .HIGH => "HIGH"
  | .MEDIUM => "MEDIUM"
  | .LOW => "LOW"

/-- The Python member name of each `Priority` member in src/main.py. -/
def Priority.memberName : Priority → String
  | .HIGH => "HIGH"
  | .MEDIUM => "MEDIUM"
  | .LOW => "LOW"

/-- The `BatchStatus` enum from src/main.py. -/
inductive BatchStatus where
  | YET_TO_START
  | TRIGGERED
  | COMPLETED
  deriving DecidableEq, Repr

/-- The underlying string value of each `BatchStatus` member, exactly as
assigned in src/main.py (`YET_TO_START = "yet_to_start"`, etc.). -/
def BatchStatus.value : BatchStatus → String
  | .YET_TO_START => "yet_to_start"
  | .TRIGGERED => "triggered"
  | .COMPLETED => "completed"

/-- The Python member name of each `BatchStatus` member in src/main.py. -/
def BatchStatus.memberName : BatchStatus → String
  | .YET_TO_START => "YET_TO_START"
  | .TRIGGERED => "TRIGGERED"
  | .COMPLETED => "COMPLETED"

/-- Modelled from the spec: the priority rank used for queue placement
(`priorityRank(HIGH)=0 < MEDIUM=1 < LOW=2`); the queue-placement code itself
is absent from src/main.py. -/
def priorityRank : Priority → Nat
  | .HIGH => 0
  | .MEDIUM => 1
  | .LOW => 2

/-- Modelled from the spec: the Identifier Batcher splits an ordered identifier
list into consecutive chunks of `BATCH_SIZE` (= 3); the batching code is absent
from src/main.py (the tests exercise it only through the ingest endpoint). -/
def chunkList : List Nat → List (List Nat)
  | [] => []
  | a :: b :: c :: rest => [a, b, c] :: chunkList rest
  | l => [l]

theorem chunkList_nil : chunkList [] = [] := rfl

theorem chunkList_ne_nil : ∀ l : List Nat, l ≠ [] → chunkList l ≠ []
  | [], h => absurd rfl h
  | [_], _ => by simp [chunkList]
  | [_, _], _ => by simp [chunkList]
  | _ :: _ :: _ :: _, _ => by simp [chunkList]

theorem chunkList_flatten : ∀ l : List Nat, (chunkList l).flatten = l
  | [] => rfl
  | [_] => rfl
  | [_, _] => rfl
  | a :: b :: c :: rest => by
      simp only [chunkList, List.flatten_cons, chunkList_flatten rest]
      rfl

theorem chunkList_length : ∀ l : List Nat,
    (chunkList l).length = (l.length + (BATCH_SIZE - 1)) / BATCH_SIZE
  | [] => rfl
  | [_] => by simp [chunkList, BATCH_SIZE]
  | [_, _] => by simp [chunkList, BATCH_SIZE]
  | a :: b :: c :: rest => by
      simp only [chunkList, List.length_cons, chunkList_length rest, BATCH_SIZE]
      omega

theorem chunkList_mem_sizes : ∀ l : List Nat,
    ∀ c ∈ chunkList l, 1 ≤ c.length ∧ c.length ≤ BATCH_SIZE
  | [], c, hc => by cases hc
  | [a], c, hc => by
      simp only [chunkList, List.mem_singleton] at hc
      subst hc; exact ⟨by simp, by simp [BATCH_SIZE]⟩
  | [a, b], c, hc => by
      simp only [chunkList, List.mem_singleton] at hc
      subst hc; exact ⟨by simp, by simp [BATCH_SIZE]⟩
  | a :: b :: c' :: rest, c, hc => by
      rcases List.mem_cons.mp hc with hc | hc
      · subst hc; exact ⟨by simp, by simp [BATCH_SIZE]⟩
      · exact chunkList_mem_sizes rest c hc

theorem chunkList_dropLast_sizes : ∀ l : List Nat,
    ∀ c ∈ (chunkList l).dropLast, c.length = BATCH_SIZE
  | [], c, hc => by cases hc
  | [_], c, hc => by cases hc
  | [_, _], c, hc => by cases hc
  | a :: b :: c' :: rest, c, hc => by
      by_cases hr : rest = []
      · subst hr; cases hc
      · have hne : chunkList rest ≠ [] := chunkList_ne_nil rest hr
        simp only [chunkList] at hc
        rw [List.dropLast_cons_of_ne_nil hne] at hc
        rcases List.mem_cons.mp hc with hc | hc
        · subst hc; rfl
        · exact chunkList_dropLast_sizes rest c hc

/-- Modelled from the spec: step 2 of the Rate-Limited Processor computes
`elapsed = now - lastStartedAt` and, if `elapsed < RATE_LIMIT_SECONDS`,
suspends for `RATE_LIMIT_SECONDS - elapsed` before starting the batch; the
processor loop is absent from src/main.py.  `nextStart last now` is the
resulting start instant of the batch. -/
def nextStart (lastStartedAt now : Nat) : Nat :=
  if now - lastStartedAt < RATE_LIMIT_SECONDS then
    now + (RATE_LIMIT_SECONDS - (now - lastStartedAt))
  else now

/-- Modelled from the spec: the successive start instants of the processor,
given the initial `lastStartedAt` and the clock reading observed at step 2 of
each cycle; `lastStartedAt` is updated at step 3, i.e. to the start instant of
the batch just started. -/
def startTimes (lastStartedAt : Nat) : List Nat → List Nat
  | [] => []
  | now :: rest => nextStart lastStartedAt now :: startTimes (nextStart lastStartedAt now) rest

/-- A physically possible sequence of clock readings: each reading at step 2 is
no earlier than the previous start instant (the clock is monotonic and step 2
of a cycle runs after step 3 of the previous one). -/
def validRun (lastStartedAt : Nat) : List Nat → Bool
  | [] => true
  | now :: rest =>
      decide (lastStartedAt ≤ now) && validRun (nextStart lastStartedAt now) rest

theorem nextStart_ge (last now : Nat) (h : last ≤ now) :
    last + RATE_LIMIT_SECONDS ≤ nextStart last now := by
  unfold nextStart
  by_cases hc : now - last < RATE_LIMIT_SECONDS
  · simp only [hc, if_true]
    omega
  · simp only [hc, if_false]
    omega

theorem startTimes_head_ge (last : Nat) (nows : List Nat)
    (hv : validRun last nows = true) :
    ∀ x, (startTimes last nows).head? = some x → last + RATE_LIMIT_SECONDS ≤ x := by
  cases nows with
  | nil => intro x hx; cases hx
  | cons now rest =>
    intro x hx
    simp only [startTimes, List.head?_cons, Option.some.injEq] at hx
    subst hx
    simp only [validRun, Bool.and_eq_true, decide_eq_true_eq] at hv
    exact nextStart_ge last now hv.1

theorem startTimes_chain (last : Nat) (nows : List Nat)
    (hv : validRun last nows = true) :
    List.Chain' (fun a b => a + RATE_LIMIT_SECONDS ≤ b) (startTimes last nows) := by
  induction nows generalizing last with
  | nil => exact List.chain'_nil
  | cons now rest ih =>
    simp only [validRun, Bool.and_eq_true, decide_eq_true_eq] at hv
    simp only [startTimes]
    rw [List.chain'_cons']
    constructor
    · intro y hy
      exact startTimes_head_ge (nextStart last now) rest hv.2 y hy
    · exact ih (nextStart last now) hv.2

theorem chunkList_getLast_sizes (l : List Nat) (c : List Nat)
    (hc : (chunkList l).getLast? = some c) :
    1 ≤ c.length ∧ c.length ≤ BATCH_SIZE := by
  have hx : c ∈ (chunkList l).getLast? := Option.mem_def.mpr hc
  rcases List.mem_getLast?_eq_getLast hx with ⟨hne, hcl⟩
  exact hcl ▸ chunkList_mem_sizes l _ (List.getLast_mem hne)

/-- C3: for every non-empty identifier list of length n, the Identifier
Batcher produces exactly ceil(n / BATCH_SIZE) chunks in order, every chunk
except the last has exactly BATCH_SIZE (= 3) elements, the last has between 1
and BATCH_SIZE elements, and the concatenation of the chunks in order equals
the input list exactly (the batcher is a pure function in this model, so it
has no side effects by construction). -/
theorem batcher_correct (ids : List Nat) (h : ids ≠ []) :
    chunkList ids ≠ [] ∧
    (chunkList ids).length = (ids.length + (BATCH_SIZE - 1)) / BATCH_SIZE ∧
    (∀ c ∈ (chunkList ids).dropLast, c.length = BATCH_SIZE) ∧
    (∀ c, (chunkList ids).getLast? = some c → 1 ≤ c.length ∧ c.length ≤ BATCH_SIZE) ∧
    (chunkList ids).flatten = ids :=
  ⟨chunkList_ne_nil ids h, chunkList_length ids, chunkList_dropLast_sizes ids,
    fun c hc => chunkList_getLast_sizes ids c hc, chunkList_flatten ids⟩

/-- Witness for C3: the spec scenario ids = [1,2,3,4,5,6,7] yields 3 chunks
whose concatenation is the input. -/
theorem batcher_correct_witness :
    chunkList [1, 2, 3, 4, 5, 6, 7] = [[1, 2, 3], [4, 5, 6], [7]] ∧
    (chunkList [1, 2, 3, 4, 5, 6, 7]).length =
      (([1, 2, 3, 4, 5, 6, 7] : List Nat).length + (BATCH_SIZE - 1)) / BATCH_SIZE ∧
    (chunkList [1, 2, 3, 4, 5, 6, 7]).flatten = [1, 2, 3, 4, 5, 6, 7] := by
  have h := batcher_correct [1, 2, 3, 4, 5, 6, 7] (by decide)
  exact ⟨by decide, h.2.1, h.2.2.2.2⟩

/-- C2: in every physically possible run of the Rate-Limited Processor
(clock readings at step 2 never precede the preceding start), the start
instants of consecutively processed batches are separated by at least
RATE_LIMIT_SECONDS (= 5), the gap being measured from the previous start
(step 3 records `lastStartedAt` at start, and step 2 waits relative to it,
not to the previous finish), and with `lastStartedAt` initialized to 0 the
very first batch starts at its own clock reading, undelayed, whenever that
reading is at least RATE_LIMIT_SECONDS past the epoch. -/
theorem rate_limit_gap (now0 : Nat) (rest : List Nat)
    (h1 : RATE_LIMIT_SECONDS ≤ now0)
    (h2 : validRun 0 (now0 :: rest) = true) :
    (startTimes 0 (now0 :: rest)).head? = some now0 ∧
    List.Chain' (fun a b => a + RATE_LIMIT_SECONDS ≤ b)
      (startTimes 0 (now0 :: rest)) := by
  constructor
  · simp only [startTimes, List.head?_cons, Option.some.injEq]
    unfold nextStart
    have : ¬ (now0 - 0 < RATE_LIMIT_SECONDS) := by omega
    simp [this]
    omega
  · exact startTimes_chain 0 (now0 :: rest) h2

/-- Witness for C2: a concrete run with clock readings 10, 11, 30 starts its
batches at instants 10, 15, 30 — the first undelayed and consecutive starts
at least RATE_LIMIT_SECONDS apart. -/
theorem rate_limit_gap_witness :
    (startTimes 0 [10, 11, 30]).head? = some 10 ∧
    List.Chain' (fun a b => a + RATE_LIMIT_SECONDS ≤ b) (startTimes 0 [10, 11, 30]) :=
  rate_limit_gap 10 [11, 30] (by decide) (by decide)

/-- Modelled from the spec: a Work Item is one batch of identifiers tied to
its parent request, its position within the request, its priority, and its
creation time; the queueing code is absent from src/main.py. -/
structure WorkItem where
  priority : Priority
  createdAt : Nat
  ingestionId : Nat
  index : Nat
  ids : List Nat
  deriving DecidableEq, Repr

/-- Modelled from the spec: the ordering key for queue placement,
`(priorityRank, createdAt, ingestionId, index)`. -/
def orderKey (w : WorkItem) : Nat × Nat × Nat × Nat :=
  (priorityRank w.priority, w.createdAt, w.ingestionId, w.index)

/-- Strict lexicographic comparison of ordering keys: lower tuple sorts
first. -/
def keyLt (a b : Nat × Nat × Nat × Nat) : Prop :=
  a.1 < b.1 ∨ (a.1 = b.1 ∧ (a.2.1 < b.2.1 ∨ (a.2.1 = b.2.1 ∧
    (a.2.2.1 < b.2.2.1 ∨ (a.2.2.1 = b.2.2.1 ∧ a.2.2.2 < b.2.2.2)))))

instance keyLt.decidable (a b : Nat × Nat × Nat × Nat) : Decidable (keyLt a b) := by
  unfold keyLt
  exact inferInstance

/-- Non-strict lexicographic comparison of ordering keys. -/
def keyLe (a b : Nat × Nat × Nat × Nat) : Prop :=
  keyLt a b ∨ a = b

instance keyLe.decidable (a b : Nat × Nat × Nat × Nat) : Decidable (keyLe a b) := by
  unfold keyLe
  exact inferInstance

theorem not_keyLt_iff (a b : Nat × Nat × Nat × Nat) : ¬ keyLt a b ↔ keyLe b a := by
  obtain ⟨a1, a2, a3, a4⟩ := a
  obtain ⟨b1, b2, b3, b4⟩ := b
  simp only [keyLt, keyLe, Prod.mk.injEq]
  omega

theorem keyLe_trans (a b c : Nat × Nat × Nat × Nat)
    (h1 : keyLe a b) (h2 : keyLe b c) : keyLe a c := by
  obtain ⟨a1, a2, a3, a4⟩ := a
  obtain ⟨b1, b2, b3, b4⟩ := b
  obtain ⟨c1, c2, c3, c4⟩ := c
  simp only [keyLt, keyLe, Prod.mk.injEq] at h1 h2 ⊢
  omega

theorem keyLe_rank (a b : Nat × Nat × Nat × Nat) (h : keyLe a b) : a.1 ≤ b.1 := by
  obtain ⟨a1, a2, a3, a4⟩ := a
  obtain ⟨b1, b2, b3, b4⟩ := b
  simp only [keyLt, keyLe, Prod.mk.injEq] at h ⊢
  omega

/-- Modelled from the spec: selection of the minimal-key item among `w :: ws`,
returning the minimum and the remaining items — the extraction step of the
binary min-heap keyed by the ordering 4-tuple. -/
def selectMin (w : WorkItem) (ws : List WorkItem) : WorkItem × List WorkItem :=
  match ws with
  | [] => (w, [])
  | x :: xs =>
    if keyLt (orderKey x) (orderKey w) then
      ((selectMin x xs).1, w :: (selectMin x xs).2)
    else
      ((selectMin w xs).1, x :: (selectMin w xs).2)

/-- Modelled from the spec: `popNext` of the Priority Work Queue — removes and
returns the item whose ordering key is minimal; on an empty queue the caller
blocks, modelled by `none`. -/
def popNext (q : List WorkItem) : Option (WorkItem × List WorkItem) :=
  match q with
  | [] => none
  | w :: ws => some (selectMin w ws)

theorem selectMin_min (w : WorkItem) (ws : List WorkItem) :
    ∀ x ∈ w :: ws, keyLe (orderKey (selectMin w ws).1) (orderKey x) := by
  induction ws generalizing w with
  | nil =>
    intro x hx
    rcases List.mem_cons.mp hx with hx | hx
    · subst hx; exact Or.inr rfl
    · cases hx
  | cons y ys ih =>
    intro x hx
    by_cases hlt : keyLt (orderKey y) (orderKey w)
    · simp only [selectMin, if_pos hlt]
      rcases List.mem_cons.mp hx with hx | hx
      · subst hx
        exact keyLe_trans _ _ _ (ih y y (List.mem_cons_self y ys)) (Or.inl hlt)
      · rcases List.mem_cons.mp hx with hx | hx
        · rw [hx]; exact ih y y (List.mem_cons_self y ys)
        · exact ih y x (List.mem_cons_of_mem y hx)
    · simp only [selectMin, if_neg hlt]
      rcases List.mem_cons.mp hx with hx | hx
      · rw [hx]; exact ih w w (List.mem_cons_self w ys)
      · rcases List.mem_cons.mp hx with hx | hx
        · rw [hx]
          exact keyLe_trans _ _ _ (ih w w (List.mem_cons_self w ys))
            ((not_keyLt_iff _ _).mp hlt)
        · exact ih w x (List.mem_cons_of_mem w hx)

theorem selectMin_perm (w : WorkItem) (ws : List WorkItem) :
    List.Perm ((selectMin w ws).1 :: (selectMin w ws).2) (w :: ws) := by
  induction ws generalizing w with
  | nil => exact List.Perm.refl _
  | cons y ys ih =>
    by_cases hlt : keyLt (orderKey y) (orderKey w)
    · simp only [selectMin, if_pos hlt]
      exact List.Perm.trans (List.Perm.swap _ _ _) (List.Perm.cons w (ih y))
    · simp only [selectMin, if_neg hlt]
      exact List.Perm.trans (List.Perm.swap _ _ _)
        (List.Perm.trans (List.Perm.cons y (ih w)) (List.Perm.swap _ _ _))

theorem selectMin_snd_length (w : WorkItem) (ws : List WorkItem) :
    (selectMin w ws).2.length = ws.length := by
  induction ws generalizing w with
  | nil => rfl
  | cons y ys ih =>
    by_cases hlt : keyLt (orderKey y) (orderKey w)
    · simp only [selectMin, if_pos hlt, List.length_cons, ih y]
    · simp only [selectMin, if_neg hlt, List.length_cons, ih w]

/-- Modelled from the spec: the sequence in which `popNext` drains the whole
queue — the global dequeue order. -/
def drain (q : List WorkItem) : List WorkItem :=
  match q with
  | [] => []
  | w :: ws => (selectMin w ws).1 :: drain (selectMin w ws).2
termination_by q.length
decreasing_by
  simp only [selectMin_snd_length, List.length_cons]
  omega

theorem drain_nil : drain [] = [] := by
  rw [drain]

theorem drain_cons (w : WorkItem) (ws : List WorkItem) :
    drain (w :: ws) = (selectMin w ws).1 :: drain (selectMin w ws).2 := by
  rw [drain]

theorem drain_perm (q : List WorkItem) : List.Perm (drain q) q := by
  induction q using drain.induct with
  | case1 => rw [drain_nil]
  | case2 w ws ih =>
    rw [drain_cons]
    exact List.Perm.trans (List.Perm.cons _ ih) (selectMin_perm w ws)

theorem drain_sorted (q : List WorkItem) :
    (drain q).Pairwise (fun a b => keyLe (orderKey a) (orderKey b)) := by
  induction q using drain.induct with
  | case1 => rw [drain_nil]; exact List.Pairwise.nil
  | case2 w ws ih =>
    rw [drain_cons]
    refine List.Pairwise.cons ?_ ih
    intro y hy
    have hy2 : y ∈ (selectMin w ws).2 := (drain_perm _).mem_iff.mp hy
    have hy3 : y ∈ (selectMin w ws).1 :: (selectMin w ws).2 :=
      List.mem_cons_of_mem _ hy2
    have hy4 : y ∈ w :: ws := (selectMin_perm w ws).mem_iff.mp hy3
    exact selectMin_min w ws y hy4

/-- C1: `popNext` always returns an enqueued item whose ordering key
`(priorityRank, createdAt, ingestionId, index)` is minimal in the queue (lower
tuples sort first), leaving a queue of exactly the remaining items; draining
the queue therefore yields the items in nondecreasing key order, so in
particular in nondecreasing priority-rank order: among batches already
enqueued, every HIGH batch is dequeued before any MEDIUM or LOW batch and
every MEDIUM before any LOW, irrespective of submission order. -/
theorem queue_pop_minimal (q : List WorkItem) :
    (∀ w rest, popNext q = some (w, rest) →
      w ∈ q ∧ List.Perm (w :: rest) q ∧ ∀ x ∈ q, keyLe (orderKey w) (orderKey x)) ∧
    (popNext q = none ↔ q = []) ∧
    (drain q).Pairwise (fun a b => keyLe (orderKey a) (orderKey b)) ∧
    (drain q).Pairwise
      (fun a b => priorityRank a.priority ≤ priorityRank b.priority) ∧
    List.Perm (drain q) q := by
  refine ⟨?_, ?_, drain_sorted q, ?_, drain_perm q⟩
  · intro w rest hpop
    cases q with
    | nil => cases hpop
    | cons z zs =>
      simp only [popNext, Option.some.injEq] at hpop
      have h1 : (selectMin z zs).1 = w := by rw [hpop]
      have h2 : (selectMin z zs).2 = rest := by rw [hpop]
      subst h1
      subst h2
      refine ⟨(selectMin_perm z zs).mem_iff.mp (List.mem_cons_self _ _), selectMin_perm z zs, ?_⟩
      intro x hx
      exact selectMin_min z zs x hx
  · cases q with
    | nil => simp [popNext]
    | cons z zs => simp [popNext]
  · exact (drain_sorted q).imp (fun h => keyLe_rank _ _ h)

/-- Witness for C1: a queue holding a MEDIUM item (older) and a HIGH item
(newer): `popNext` returns the HIGH item, which has the minimal key, and the
drain order is nondecreasing in priority rank. -/
theorem queue_pop_minimal_witness :
    popNext [WorkItem.mk .MEDIUM 0 1 0 [1, 2, 3], WorkItem.mk .HIGH 4 2 0 [6, 7, 8]] =
      some (WorkItem.mk .HIGH 4 2 0 [6, 7, 8], [WorkItem.mk .MEDIUM 0 1 0 [1, 2, 3]]) ∧
    (∀ x ∈ [WorkItem.mk .MEDIUM 0 1 0 [1, 2, 3], WorkItem.mk .HIGH 4 2 0 [6, 7, 8]],
      keyLe (orderKey (WorkItem.mk .HIGH 4 2 0 [6, 7, 8])) (orderKey x)) ∧
    (drain [WorkItem.mk .MEDIUM 0 1 0 [1, 2, 3], WorkItem.mk .HIGH 4 2 0 [6, 7, 8]]).Pairwise
      (fun a b => priorityRank a.priority ≤ priorityRank b.priority) := by
  have h := queue_pop_minimal
    [WorkItem.mk .MEDIUM 0 1 0 [1, 2, 3], WorkItem.mk .HIGH 4 2 0 [6, 7, 8]]
  have hpop : popNext [WorkItem.mk .MEDIUM 0 1 0 [1, 2, 3], WorkItem.mk .HIGH 4 2 0 [6, 7, 8]] =
      some (WorkItem.mk .HIGH 4 2 0 [6, 7, 8], [WorkItem.mk .MEDIUM 0 1 0 [1, 2, 3]]) := by
    decide
  exact ⟨hpop, (h.1 _ _ hpop).2.2, h.2.2.2.1⟩

/-- Modelled from the spec: a Batch — zero-based position within the parent
request, the ordered identifiers of the chunk, and the batch status. -/
structure Batch where
  index : Nat
  ids : List Nat
  status : BatchStatus
  deriving DecidableEq, Repr

/-- Modelled from the spec: an IngestionRequest record — opaque handle,
priority, monotonic submission timestamp, and the ordered batch sequence. -/
structure IngestionRequest where
  id : Nat
  priority : Priority
  createdAt : Nat
  batches : List Batch
  deriving DecidableEq, Repr

/-- Modelled from the spec: the derived overall request status (the test
suite imports `IngestionOverallStatus` from main). -/
inductive IngestionOverallStatus where
  | YET_TO_START
  | TRIGGERED
  | COMPLETED
  deriving DecidableEq, Repr

/-- Modelled from the spec: the derived request status, computed on read and
not stored — YET_TO_START if every batch is YET_TO_START, COMPLETED if every
batch is COMPLETED, otherwise TRIGGERED. -/
def overallStatus (req : IngestionRequest) : IngestionOverallStatus :=
  if req.batches.all (fun b => b.status == BatchStatus.YET_TO_START) then
    IngestionOverallStatus.YET_TO_START
  else if req.batches.all (fun b => b.status == BatchStatus.COMPLETED) then
    IngestionOverallStatus.COMPLETED
  else IngestionOverallStatus.TRIGGERED

/-- Modelled from the spec: the shared mutable state — the Registry, the
Priority Work Queue, and the batch the single-consumer Processor is currently
working (between its TRIGGERED and COMPLETED transitions). -/
structure SystemState where
  registry : List IngestionRequest
  queue : List WorkItem
  inflight : Option (Nat × Nat)
  deriving DecidableEq, Repr

/-- The state at process start: empty registry, empty queue, idle processor. -/
def initState : SystemState := SystemState.mk [] [] none

/-- Registry lookup by request handle (first record with the given id). -/
def lookupReq (reg : List IngestionRequest) (reqId : Nat) : Option IngestionRequest :=
  reg.find? (fun req => req.id == reqId)

/-- Registry lookup on a state. -/
def SystemState.findReq (st : SystemState) (reqId : Nat) : Option IngestionRequest :=
  lookupReq st.registry reqId

/-- The status of batch `idx` of request `reqId`, if both exist. -/
def batchStatusOf (reg : List IngestionRequest) (reqId idx : Nat) : Option BatchStatus :=
  match lookupReq reg reqId with
  | none => none
  | some req => (req.batches.find? (fun b => b.index == idx)).map Batch.status

/-- `setBatch b idx s` is `b` with status `s` when `b` sits at index `idx`,
else `b` unchanged. -/
def setBatch (b : Batch) (idx : Nat) (s : BatchStatus) : Batch :=
  if b.index = idx then Batch.mk b.index b.ids s else b

/-- The per-request update applied by the Registry when the Processor flips
the status of batch `(reqId, idx)`. -/
def updReq (reqId idx : Nat) (s : BatchStatus) (req : IngestionRequest) : IngestionRequest :=
  if req.id = reqId then
    IngestionRequest.mk req.id req.priority req.createdAt
      (req.batches.map (fun b => setBatch b idx s))
  else req

/-- Modelled from the spec: in-place status mutation of a specific batch by
`(id, index)` in the Registry. -/
def setStatus (reg : List IngestionRequest) (reqId idx : Nat) (s : BatchStatus) :
    List IngestionRequest :=
  reg.map (updReq reqId idx s)

/-- Batches of a fresh request: one YET_TO_START batch per chunk, indexed from
zero in chunk order. -/
def mkBatches : Nat → List (List Nat) → List Batch
  | _, [] => []
  | i, c :: cs => Batch.mk i c BatchStatus.YET_TO_START :: mkBatches (i + 1) cs

/-- The Work Items a submission pushes, one per batch in index order, carrying
the parent's priority and creation time. -/
def mkItems (p : Priority) (t : Nat) (reqId : Nat) (bs : List Batch) : List WorkItem :=
  bs.map (fun b => WorkItem.mk p t reqId b.index b.ids)

/-- The error taxonomy of Submit (spec §7): an empty id list or an id outside
`[1, MAX_ID_VALUE]`; the range error names the offending value and the valid
bounds. -/
inductive SubmitError where
  | emptyIds
  | outOfRange (value lo hi : Nat)
  deriving DecidableEq, Repr

/-- Modelled from the spec: Submit — validates every id against
`[1, MAX_ID_VALUE]`, batches the ids, registers the request with all batches
YET_TO_START, then pushes each batch in index order; on validation failure it
returns the state unchanged together with the error. -/
def submit (st : SystemState) (reqId : Nat) (ids : List Nat) (p : Priority) (now : Nat) :
    SystemState × Except SubmitError Nat :=
  if ids = [] then (st, Except.error SubmitError.emptyIds)
  else
    match ids.find? (fun v => decide (v < 1 ∨ MAX_ID_VALUE < v)) with
    | some v => (st, Except.error (SubmitError.outOfRange v 1 MAX_ID_VALUE))
    | none =>
      (SystemState.mk
        (st.registry ++ [IngestionRequest.mk reqId p now (mkBatches 0 (chunkList ids))])
        (st.queue ++ mkItems p now reqId (mkBatches 0 (chunkList ids)))
        st.inflight,
       Except.ok reqId)

/-- A snapshot returned by GetStatus: the handle, the derived overall status,
and one `(index, ids, status)` entry per batch in index order. -/
structure StatusSnapshot where
  requestId : Nat
  status : IngestionOverallStatus
  batches : List (Nat × List Nat × BatchStatus)
  deriving DecidableEq, Repr

/-- Modelled from the spec: GetStatus — fails with a NotFound condition if the
handle is unknown, otherwise returns a snapshot read from the Registry; it is
a pure read and returns no modified state. -/
def getStatus (st : SystemState) (reqId : Nat) : Except String StatusSnapshot :=
  match st.findReq reqId with
  | none => Except.error "Ingestion ID not found"
  | some req =>
      Except.ok (StatusSnapshot.mk reqId (overallStatus req)
        (req.batches.map (fun b => (b.index, b.ids, b.status))))

/-- An observable event of the system. -/
inductive Event where
  | submitEv (reqId : Nat) (ids : List Nat) (p : Priority) (now : Nat)
  | triggerEv (reqId idx : Nat)
  | completeEv (reqId idx : Nat)
  deriving DecidableEq, Repr

/-- Spec §4.4 step 3: pop the minimal item, mark it TRIGGERED in the Registry,
record it as in flight. -/
def applyTrigger (st : SystemState) (w : WorkItem) (rest : List WorkItem) : SystemState :=
  SystemState.mk (setStatus st.registry w.ingestionId w.index BatchStatus.TRIGGERED)
    rest (some (w.ingestionId, w.index))

/-- Spec §4.4 step 5: mark the in-flight batch COMPLETED in the Registry. -/
def applyComplete (st : SystemState) (r i : Nat) : SystemState :=
  SystemState.mk (setStatus st.registry r i BatchStatus.COMPLETED) st.queue none

/-- Modelled from the spec: the labelled transitions of the system — a
successful Submit (with a fresh handle, as generated by uuid4), the
Processor's TRIGGERED transition on the popped minimal item (steps 1–3), and
its COMPLETED transition on the in-flight batch (step 5). -/
inductive LStep : SystemState → Event → SystemState → Prop where
  | submitOk (st : SystemState) (reqId : Nat) (ids : List Nat) (p : Priority)
      (now : Nat) (st' : SystemState) :
      st.findReq reqId = none →
      submit st reqId ids p now = (st', Except.ok reqId) →
      LStep st (Event.submitEv reqId ids p now) st'
  | trigger (st : SystemState) (w : WorkItem) (rest : List WorkItem) :
      st.inflight = none →
      popNext st.queue = some (w, rest) →
      LStep st (Event.triggerEv w.ingestionId w.index) (applyTrigger st w rest)
  | complete (st : SystemState) (r i : Nat) :
      st.inflight = some (r, i) →
      LStep st (Event.completeEv r i) (applyComplete st r i)

/-- A run of the system: a sequence of labelled steps. -/
inductive Trace : SystemState → List Event → SystemState → Prop where
  | nil (st : SystemState) : Trace st [] st
  | cons (st st₁ st₂ : SystemState) (e : Event) (evs : List Event) :
      LStep st e st₁ → Trace st₁ evs st₂ → Trace st (e :: evs) st₂

/-- States reachable from process start. -/
def Reachable (st : SystemState) : Prop := ∃ evs, Trace initState evs st

theorem setBatch_index (b : Batch) (idx : Nat) (s : BatchStatus) :
    (setBatch b idx s).index = b.index := by
  unfold setBatch
  split <;> rfl

theorem setBatch_ids (b : Batch) (idx : Nat) (s : BatchStatus) :
    (setBatch b idx s).ids = b.ids := by
  unfold setBatch
  split <;> rfl

theorem updReq_id (r i : Nat) (s : BatchStatus) (req : IngestionRequest) :
    (updReq r i s req).id = req.id := by
  unfold updReq
  split <;> rfl

theorem updReq_priority (r i : Nat) (s : BatchStatus) (req : IngestionRequest) :
    (updReq r i s req).priority = req.priority := by
  unfold updReq
  split <;> rfl

theorem updReq_createdAt (r i : Nat) (s : BatchStatus) (req : IngestionRequest) :
    (updReq r i s req).createdAt = req.createdAt := by
  unfold updReq
  split <;> rfl

theorem updReq_batches_index (r i : Nat) (s : BatchStatus) (req : IngestionRequest) :
    (updReq r i s req).batches.map Batch.index = req.batches.map Batch.index := by
  unfold updReq
  split
  · simp only [List.map_map]
    exact List.map_congr_left (fun b _ => setBatch_index b i s)
  · rfl

theorem updReq_batches_length (r i : Nat) (s : BatchStatus) (req : IngestionRequest) :
    (updReq r i s req).batches.length = req.batches.length := by
  have h := updReq_batches_index r i s req
  have h1 := congrArg List.length h
  simpa using h1

theorem updReq_batches_ne (r i : Nat) (s : BatchStatus) (req : IngestionRequest)
    (h : req.batches ≠ []) : (updReq r i s req).batches ≠ [] := by
  intro hc
  apply h
  have := updReq_batches_length r i s req
  rw [hc] at this
  exact List.eq_nil_of_length_eq_zero this.symm

theorem lookupReq_some_id (reg : List IngestionRequest) (r : Nat)
    (req : IngestionRequest) (h : lookupReq reg r = some req) : req.id = r := by
  have h1 := List.find?_some h
  simpa using h1

theorem lookupReq_mem (reg : List IngestionRequest) (r : Nat)
    (req : IngestionRequest) (h : lookupReq reg r = some req) : req ∈ reg :=
  List.mem_of_find?_eq_some h

theorem lookupReq_eq_none (reg : List IngestionRequest) (r : Nat) :
    lookupReq reg r = none ↔ ∀ req ∈ reg, req.id ≠ r := by
  unfold lookupReq
  rw [List.find?_eq_none]
  constructor
  · intro h req hm
    have := h req hm
    simpa using this
  · intro h req hm
    simpa using h req hm

theorem lookupReq_append (reg : List IngestionRequest) (req : IngestionRequest)
    (r : Nat) :
    lookupReq (reg ++ [req]) r = (lookupReq reg r).or (lookupReq [req] r) := by
  unfold lookupReq
  exact List.find?_append

theorem lookupReq_singleton (req : IngestionRequest) (r : Nat) :
    lookupReq [req] r = if req.id = r then some req else none := by
  unfold lookupReq
  rw [List.find?_singleton]
  by_cases h : req.id = r
  · simp [h]
  · simp [h]

theorem lookupReq_setStatus (reg : List IngestionRequest) (r i : Nat)
    (s : BatchStatus) (r' : Nat) :
    lookupReq (setStatus reg r i s) r' = (lookupReq reg r').map (updReq r i s) := by
  unfold lookupReq setStatus
  rw [List.find?_map]
  have h : ((fun req => req.id == r') ∘ updReq r i s) = fun req => req.id == r' := by
    funext req
    simp [Function.comp, updReq_id]
  rw [h]

theorem find?_map_setBatch (bs : List Batch) (i j : Nat) (s : BatchStatus) :
    (bs.map (fun b => setBatch b j s)).find? (fun b => b.index == i) =
      (bs.find? (fun b => b.index == i)).map (fun b => setBatch b j s) := by
  rw [List.find?_map]
  have h : ((fun b => b.index == i) ∘ fun b => setBatch b j s) =
      fun b => b.index == i := by
    funext b
    simp [Function.comp, setBatch_index]
  rw [h]

theorem batchStatusOf_setStatus_ne (reg : List IngestionRequest) (r i r' i' : Nat)
    (s : BatchStatus) (hne : ¬(r' = r ∧ i' = i)) :
    batchStatusOf (setStatus reg r i s) r' i' = batchStatusOf reg r' i' := by
  unfold batchStatusOf
  rw [lookupReq_setStatus]
  cases hl : lookupReq reg r' with
  | none => rfl
  | some req =>
    have hid : req.id = r' := lookupReq_some_id reg r' req hl
    simp only [Option.map_some']
    by_cases hr : r' = r
    · have hi : i' ≠ i := fun hii => hne ⟨hr, hii⟩
      unfold updReq
      rw [if_pos (hid.trans hr)]
      simp only
      rw [find?_map_setBatch]
      cases hf : req.batches.find? (fun b => b.index == i') with
      | none => rfl
      | some b =>
        have hbi : b.index = i' := by
          have := List.find?_some hf
          simpa using this
        simp only [Option.map_some']
        have hsb : setBatch b i s = b := by
          unfold setBatch
          rw [if_neg]
          rw [hbi]
          exact hi
        rw [hsb]
    · unfold updReq
      rw [if_neg (fun hc => hr (hid.symm.trans hc))]

theorem batchStatusOf_setStatus_self (reg : List IngestionRequest) (r i : Nat)
    (s : BatchStatus) (h : (batchStatusOf reg r i).isSome) :
    batchStatusOf (setStatus reg r i s) r i = some s := by
  unfold batchStatusOf at *
  rw [lookupReq_setStatus]
  cases hl : lookupReq reg r with
  | none => rw [hl] at h; simp at h
  | some req =>
    rw [hl] at h
    have h2 : (Option.map Batch.status
        (List.find? (fun b => b.index == i) req.batches)).isSome = true := h
    have hid : req.id = r := lookupReq_some_id reg r req hl
    simp only [Option.map_some']
    unfold updReq
    rw [if_pos hid]
    simp only
    rw [find?_map_setBatch]
    cases hf : req.batches.find? (fun b => b.index == i) with
    | none => rw [hf] at h2; simp at h2
    | some b =>
      have hbi : b.index = i := by
        have := List.find?_some hf
        simpa using this
      simp only [Option.map_some']
      unfold setBatch
      rw [if_pos hbi]

theorem mkBatches_map_index : ∀ (i : Nat) (cs : List (List Nat)),
    (mkBatches i cs).map Batch.index = List.range' i cs.length
  | _, [] => rfl
  | i, c :: cs => by
      simp only [mkBatches, List.map_cons, List.length_cons, List.range'_succ]
      rw [mkBatches_map_index (i + 1) cs]

theorem mkBatches_length (i : Nat) (cs : List (List Nat)) :
    (mkBatches i cs).length = cs.length := by
  have h := congrArg List.length (mkBatches_map_index i cs)
  simpa using h

theorem mkBatches_map_ids : ∀ (i : Nat) (cs : List (List Nat)),
    (mkBatches i cs).map Batch.ids = cs
  | _, [] => rfl
  | i, c :: cs => by
      simp only [mkBatches, List.map_cons]
      rw [mkBatches_map_ids (i + 1) cs]

theorem mkBatches_status : ∀ (i : Nat) (cs : List (List Nat)),
    ∀ b ∈ mkBatches i cs, b.status = BatchStatus.YET_TO_START
  | _, [], b, hb => by cases hb
  | i, c :: cs, b, hb => by
      rcases List.mem_cons.mp hb with hb | hb
      · rw [hb]
      · exact mkBatches_status (i + 1) cs b hb

theorem mkBatches_ne (i : Nat) (cs : List (List Nat)) (h : cs ≠ []) :
    mkBatches i cs ≠ [] := by
  cases cs with
  | nil => exact absurd rfl h
  | cons c cs => exact List.cons_ne_nil _ _

theorem mkBatches_index_nodup (i : Nat) (cs : List (List Nat)) :
    ((mkBatches i cs).map Batch.index).Nodup := by
  rw [mkBatches_map_index]
  exact List.nodup_range' i cs.length

theorem mkItems_mem (p : Priority) (t reqId : Nat) (bs : List Batch)
    (w : WorkItem) (h : w ∈ mkItems p t reqId bs) :
    w.priority = p ∧ w.createdAt = t ∧ w.ingestionId = reqId ∧
      ∃ b ∈ bs, w.index = b.index ∧ w.ids = b.ids := by
  unfold mkItems at h
  rcases List.mem_map.mp h with ⟨b, hb, hw⟩
  subst hw
  exact ⟨rfl, rfl, rfl, b, hb, rfl, rfl⟩

theorem mkItems_pairs (p : Priority) (t reqId : Nat) (bs : List Batch) :
    (mkItems p t reqId bs).map (fun w => (w.ingestionId, w.index)) =
      (bs.map Batch.index).map (fun i => (reqId, i)) := by
  unfold mkItems
  rw [List.map_map, List.map_map]
  rfl

theorem mkItems_pairs_nodup (p : Priority) (t reqId : Nat) (cs : List (List Nat)) :
    ((mkItems p t reqId (mkBatches 0 cs)).map
      (fun w => (w.ingestionId, w.index))).Nodup := by
  rw [mkItems_pairs]
  refine List.Nodup.map ?_ (mkBatches_index_nodup 0 cs)
  intro a b hab
  simpa using hab

/-- The system invariant maintained by every reachable state: registered
handles are unique; every request's batch indices are exactly `0..k-1` in
order and its batch list is non-empty; every queued item refers to a
registered YET_TO_START batch and carries its parent's priority and creation
time; queued `(request, index)` pairs are distinct; the in-flight batch, when
present, is TRIGGERED and no longer queued. -/
structure Inv (st : SystemState) : Prop where
  regIds : (st.registry.map IngestionRequest.id).Nodup
  regIdx : ∀ req ∈ st.registry,
    req.batches.map Batch.index = List.range' 0 req.batches.length
  regNe : ∀ req ∈ st.registry, req.batches ≠ []
  queueYTS : ∀ w ∈ st.queue,
    batchStatusOf st.registry w.ingestionId w.index = some BatchStatus.YET_TO_START
  queueMeta : ∀ w ∈ st.queue, ∀ req, lookupReq st.registry w.ingestionId = some req →
    w.priority = req.priority ∧ w.createdAt = req.createdAt
  queueNodup : (st.queue.map (fun w => (w.ingestionId, w.index))).Nodup
  inflightTrig : ∀ r i, st.inflight = some (r, i) →
    batchStatusOf st.registry r i = some BatchStatus.TRIGGERED ∧
      ∀ w ∈ st.queue, (w.ingestionId, w.index) ≠ (r, i)

theorem inv_init : Inv initState := by
  constructor
  · exact List.nodup_nil
  · intro req h; cases h
  · intro req h; cases h
  · intro w h; cases h
  · intro w h; cases h
  · exact List.nodup_nil
  · intro r i h; cases h

theorem setStatus_map_id (reg : List IngestionRequest) (r i : Nat) (s : BatchStatus) :
    (setStatus reg r i s).map IngestionRequest.id = reg.map IngestionRequest.id := by
  unfold setStatus
  rw [List.map_map]
  exact List.map_congr_left (fun req _ => updReq_id r i s req)

theorem popNext_perm (q : List WorkItem) (w : WorkItem) (rest : List WorkItem)
    (h : popNext q = some (w, rest)) : List.Perm (w :: rest) q := by
  cases q with
  | nil => cases h
  | cons z zs =>
    simp only [popNext, Option.some.injEq] at h
    have h1 : (selectMin z zs).1 = w := by rw [h]
    have h2 : (selectMin z zs).2 = rest := by rw [h]
    rw [← h1, ← h2]
    exact selectMin_perm z zs

theorem popNext_min (q : List WorkItem) (w : WorkItem) (rest : List WorkItem)
    (h : popNext q = some (w, rest)) :
    ∀ x ∈ q, keyLe (orderKey w) (orderKey x) := by
  cases q with
  | nil => cases h
  | cons z zs =>
    simp only [popNext, Option.some.injEq] at h
    have h1 : (selectMin z zs).1 = w := by rw [h]
    rw [← h1]
    exact selectMin_min z zs

theorem lookupReq_append_left (reg₁ reg₂ : List IngestionRequest) (r : Nat)
    (req : IngestionRequest) (h : lookupReq reg₁ r = some req) :
    lookupReq (reg₁ ++ reg₂) r = some req := by
  unfold lookupReq at *
  rw [List.find?_append, h, Option.or_some]

theorem lookupReq_append_right (reg₁ reg₂ : List IngestionRequest) (r : Nat)
    (h : lookupReq reg₁ r = none) :
    lookupReq (reg₁ ++ reg₂) r = lookupReq reg₂ r := by
  unfold lookupReq at *
  rw [List.find?_append, h, Option.none_or]

theorem batchStatusOf_append_left (reg₁ reg₂ : List IngestionRequest) (r i : Nat)
    (h : (lookupReq reg₁ r).isSome) :
    batchStatusOf (reg₁ ++ reg₂) r i = batchStatusOf reg₁ r i := by
  unfold batchStatusOf
  cases hl : lookupReq reg₁ r with
  | none => rw [hl] at h; cases h
  | some req => rw [lookupReq_append_left reg₁ reg₂ r req hl]

theorem find?_index_of_mem (bs : List Batch) (b : Batch) (hb : b ∈ bs) :
    ((bs.find? (fun x => x.index == b.index)).isSome) := by
  rw [List.find?_isSome]
  exact ⟨b, hb, by simp⟩

/-- Every conclusion of a successful `submit`: the input was valid and the new
state appends the fresh request to the Registry and its Work Items to the
queue, leaving the in-flight marker unchanged. -/
theorem submit_ok_shape (st : SystemState) (reqId : Nat) (ids : List Nat)
    (p : Priority) (now : Nat) (st' : SystemState) (rid : Nat)
    (h : submit st reqId ids p now = (st', Except.ok rid)) :
    ids ≠ [] ∧
    ids.find? (fun v => decide (v < 1 ∨ MAX_ID_VALUE < v)) = none ∧
    rid = reqId ∧
    st' = SystemState.mk
      (st.registry ++ [IngestionRequest.mk reqId p now (mkBatches 0 (chunkList ids))])
      (st.queue ++ mkItems p now reqId (mkBatches 0 (chunkList ids)))
      st.inflight := by
  unfold submit at h
  by_cases he : ids = []
  · rw [if_pos he] at h
    simp at h
  · rw [if_neg he] at h
    cases hf : ids.find? (fun v => decide (v < 1 ∨ MAX_ID_VALUE < v)) with
    | some v =>
      rw [hf] at h
      simp at h
    | none =>
      rw [hf] at h
      simp only [Prod.mk.injEq, Except.ok.injEq] at h
      exact ⟨he, rfl, h.2.symm, h.1.symm⟩

theorem inv_submit (st : SystemState) (reqId : Nat) (ids : List Nat)
    (p : Priority) (now : Nat) (st' : SystemState)
    (hfresh : st.findReq reqId = none)
    (hsub : submit st reqId ids p now = (st', Except.ok reqId))
    (hinv : Inv st) : Inv st' := by
  obtain ⟨hne, hval, -, hshape⟩ :=
    submit_ok_shape st reqId ids p now st' reqId hsub
  subst hshape
  have hfresh' : lookupReq st.registry reqId = none := hfresh
  have hids : ∀ req ∈ st.registry, req.id ≠ reqId :=
    (lookupReq_eq_none st.registry reqId).mp hfresh'
  have hqueueReg : ∀ w ∈ st.queue, (lookupReq st.registry w.ingestionId).isSome := by
    intro w hw
    have h1 := hinv.queueYTS w hw
    unfold batchStatusOf at h1
    cases hl : lookupReq st.registry w.ingestionId with
    | none => rw [hl] at h1; cases h1
    | some req => rfl
  have hqueueNe : ∀ w ∈ st.queue, w.ingestionId ≠ reqId := by
    intro w hw hc
    have h1 := hqueueReg w hw
    cases hl : lookupReq st.registry w.ingestionId with
    | none => rw [hl] at h1; cases h1
    | some req =>
      have hid := lookupReq_some_id _ _ _ hl
      exact hids req (lookupReq_mem _ _ _ hl) (hid.trans hc)
  have hnewLookup :
      lookupReq (st.registry ++
        [IngestionRequest.mk reqId p now (mkBatches 0 (chunkList ids))]) reqId =
      some (IngestionRequest.mk reqId p now (mkBatches 0 (chunkList ids))) := by
    rw [lookupReq_append_right _ _ _ hfresh', lookupReq_singleton]
    rw [if_pos rfl]
  constructor
  · rw [List.map_append, List.nodup_append]
    refine ⟨hinv.regIds, by simp, ?_⟩
    intro a ha hb
    simp only [List.map_cons, List.map_nil, List.mem_singleton] at hb
    subst hb
    rcases List.mem_map.mp ha with ⟨req, hreq, hid⟩
    exact hids req hreq hid
  · intro req hreq
    rcases List.mem_append.mp hreq with hreq | hreq
    · exact hinv.regIdx req hreq
    · rcases List.mem_singleton.mp hreq with rfl
      simp only
      rw [mkBatches_map_index, mkBatches_length]
  · intro req hreq
    rcases List.mem_append.mp hreq with hreq | hreq
    · exact hinv.regNe req hreq
    · rcases List.mem_singleton.mp hreq with rfl
      exact mkBatches_ne 0 (chunkList ids) (chunkList_ne_nil ids hne)
  · intro w hw
    rcases List.mem_append.mp hw with hw | hw
    · rw [batchStatusOf_append_left _ _ _ _ (hqueueReg w hw)]
      exact hinv.queueYTS w hw
    · obtain ⟨hp, ht, hr, b, hb, hidx, hids2⟩ :=
        mkItems_mem p now reqId (mkBatches 0 (chunkList ids)) w hw
      unfold batchStatusOf
      rw [hr, hnewLookup]
      simp only
      have hfs := find?_index_of_mem (mkBatches 0 (chunkList ids)) b hb
      cases hf : (mkBatches 0 (chunkList ids)).find? (fun x => x.index == b.index) with
      | none => rw [hf] at hfs; cases hfs
      | some b' =>
        rw [hidx, hf]
        have hb' : b' ∈ mkBatches 0 (chunkList ids) := List.mem_of_find?_eq_some hf
        rw [Option.map_some']
        rw [mkBatches_status 0 (chunkList ids) b' hb']
  · intro w hw req hl
    rcases List.mem_append.mp hw with hw | hw
    · have h1 := hqueueReg w hw
      cases hl0 : lookupReq st.registry w.ingestionId with
      | none => rw [hl0] at h1; cases h1
      | some req0 =>
        rw [lookupReq_append_left _ _ _ _ hl0] at hl
        have hreq : req0 = req := Option.some.inj hl
        rw [← hreq]
        exact hinv.queueMeta w hw req0 hl0
    · obtain ⟨hp, ht, hr, b, hb, hidx, hids2⟩ :=
        mkItems_mem p now reqId (mkBatches 0 (chunkList ids)) w hw
      rw [hr, hnewLookup] at hl
      cases hl
      exact ⟨hp, ht⟩
  · rw [List.map_append, List.nodup_append]
    refine ⟨hinv.queueNodup, mkItems_pairs_nodup p now reqId (chunkList ids), ?_⟩
    intro a ha hb
    rcases List.mem_map.mp ha with ⟨w, hw, hwa⟩
    rcases List.mem_map.mp hb with ⟨w', hw', hwb⟩
    have hne1 : w.ingestionId ≠ reqId := hqueueNe w hw
    obtain ⟨-, -, hr', -⟩ := mkItems_mem p now reqId (mkBatches 0 (chunkList ids)) w' hw'
    apply hne1
    have hfst : w.ingestionId = w'.ingestionId :=
      congrArg Prod.fst (hwa.trans hwb.symm)
    rw [hfst, hr']
  · intro r i hin
    simp only at hin
    obtain ⟨hst, hpair⟩ := hinv.inflightTrig r i hin
    have hsome : (lookupReq st.registry r).isSome := by
      unfold batchStatusOf at hst
      cases hl : lookupReq st.registry r with
      | none => rw [hl] at hst; cases hst
      | some req => rfl
    constructor
    · rw [batchStatusOf_append_left _ _ _ _ hsome]
      exact hst
    · intro w hw
      rcases List.mem_append.mp hw with hw | hw
      · exact hpair w hw
      · obtain ⟨-, -, hr', -⟩ :=
          mkItems_mem p now reqId (mkBatches 0 (chunkList ids)) w hw
        intro hc
        have hri : w.ingestionId = r := congrArg Prod.fst hc
        have hrX : r ≠ reqId := by
          intro hrr
          cases hl : lookupReq st.registry r with
          | none => rw [hl] at hsome; cases hsome
          | some req =>
            have hid := lookupReq_some_id _ _ _ hl
            exact hids req (lookupReq_mem _ _ _ hl) (hid.trans hrr)
        exact hrX (hri.symm.trans hr')

theorem inv_trigger (st : SystemState) (w : WorkItem) (rest : List WorkItem)
    (hif : st.inflight = none)
    (hpop : popNext st.queue = some (w, rest))
    (hinv : Inv st) : Inv (applyTrigger st w rest) := by
  have hperm : List.Perm (w :: rest) st.queue := popNext_perm _ _ _ hpop
  have hwq : w ∈ st.queue := hperm.mem_iff.mp (List.mem_cons_self _ _)
  have hrq : ∀ x ∈ rest, x ∈ st.queue := fun x hx =>
    hperm.mem_iff.mp (List.mem_cons_of_mem _ hx)
  have hpairs : ((w :: rest).map (fun x => (x.ingestionId, x.index))).Nodup :=
    ((hperm.map _).nodup_iff).mpr hinv.queueNodup
  have hpairw : ∀ x ∈ rest, (x.ingestionId, x.index) ≠ (w.ingestionId, w.index) := by
    intro x hx hc
    have h1 : (w.ingestionId, w.index) ∉
        rest.map (fun x => (x.ingestionId, x.index)) := by
      have h2 := hpairs
      simp only [List.map_cons, List.nodup_cons] at h2
      exact h2.1
    exact h1 (hc ▸ List.mem_map_of_mem _ hx)
  have hwSome : (batchStatusOf st.registry w.ingestionId w.index).isSome := by
    rw [hinv.queueYTS w hwq]
    rfl
  constructor
  · show ((setStatus st.registry w.ingestionId w.index
      BatchStatus.TRIGGERED).map IngestionRequest.id).Nodup
    rw [setStatus_map_id]
    exact hinv.regIds
  · intro req hreq
    rcases List.mem_map.mp hreq with ⟨req0, hreq0, hupd⟩
    rw [← hupd, updReq_batches_index, updReq_batches_length]
    exact hinv.regIdx req0 hreq0
  · intro req hreq
    rcases List.mem_map.mp hreq with ⟨req0, hreq0, hupd⟩
    rw [← hupd]
    exact updReq_batches_ne _ _ _ _ (hinv.regNe req0 hreq0)
  · intro x hx
    show batchStatusOf (setStatus st.registry w.ingestionId w.index
      BatchStatus.TRIGGERED) x.ingestionId x.index = some BatchStatus.YET_TO_START
    rw [batchStatusOf_setStatus_ne]
    · exact hinv.queueYTS x (hrq x hx)
    · intro hc
      exact hpairw x hx (by rw [hc.1, hc.2])
  · intro x hx req hl
    show x.priority = req.priority ∧ x.createdAt = req.createdAt
    have hl' : lookupReq (setStatus st.registry w.ingestionId w.index
        BatchStatus.TRIGGERED) x.ingestionId = some req := hl
    rw [lookupReq_setStatus] at hl'
    cases hl0 : lookupReq st.registry x.ingestionId with
    | none => rw [hl0] at hl'; cases hl'
    | some req0 =>
      rw [hl0, Option.map_some'] at hl'
      have hreq := Option.some.inj hl'
      rw [← hreq, updReq_priority, updReq_createdAt]
      exact hinv.queueMeta x (hrq x hx) req0 hl0
  · show (rest.map (fun x => (x.ingestionId, x.index))).Nodup
    have h2 := hpairs
    simp only [List.map_cons, List.nodup_cons] at h2
    exact h2.2
  · intro r i hin
    have hin' : some (w.ingestionId, w.index) = some (r, i) := hin
    have hri := Option.some.inj hin'
    have hr1 : r = w.ingestionId := (congrArg Prod.fst hri).symm
    have hi1 : i = w.index := (congrArg Prod.snd hri).symm
    subst hr1
    subst hi1
    exact ⟨batchStatusOf_setStatus_self _ _ _ _ hwSome,
      fun x hx hc => hpairw x hx hc⟩

theorem inv_complete (st : SystemState) (r i : Nat)
    (hin : st.inflight = some (r, i)) (hinv : Inv st) :
    Inv (applyComplete st r i) := by
  obtain ⟨hst, hpair⟩ := hinv.inflightTrig r i hin
  constructor
  · show ((setStatus st.registry r i
      BatchStatus.COMPLETED).map IngestionRequest.id).Nodup
    rw [setStatus_map_id]
    exact hinv.regIds
  · intro req hreq
    rcases List.mem_map.mp hreq with ⟨req0, hreq0, hupd⟩
    rw [← hupd, updReq_batches_index, updReq_batches_length]
    exact hinv.regIdx req0 hreq0
  · intro req hreq
    rcases List.mem_map.mp hreq with ⟨req0, hreq0, hupd⟩
    rw [← hupd]
    exact updReq_batches_ne _ _ _ _ (hinv.regNe req0 hreq0)
  · intro x hx
    show batchStatusOf (setStatus st.registry r i
      BatchStatus.COMPLETED) x.ingestionId x.index = some BatchStatus.YET_TO_START
    rw [batchStatusOf_setStatus_ne]
    · exact hinv.queueYTS x hx
    · intro hc
      exact hpair x hx (by rw [hc.1, hc.2])
  · intro x hx req hl
    show x.priority = req.priority ∧ x.createdAt = req.createdAt
    have hl' : lookupReq (setStatus st.registry r i
        BatchStatus.COMPLETED) x.ingestionId = some req := hl
    rw [lookupReq_setStatus] at hl'
    cases hl0 : lookupReq st.registry x.ingestionId with
    | none => rw [hl0] at hl'; cases hl'
    | some req0 =>
      rw [hl0, Option.map_some'] at hl'
      have hreq := Option.some.inj hl'
      rw [← hreq, updReq_priority, updReq_createdAt]
      exact hinv.queueMeta x hx req0 hl0
  · exact hinv.queueNodup
  · intro r' i' hin'
    cases hin'

theorem inv_step (st st' : SystemState) (e : Event)
    (h : LStep st e st') (hinv : Inv st) : Inv st' := by
  cases h with
  | submitOk reqId ids p now st2 hfresh hsub =>
    exact inv_submit _ reqId ids p now _ hfresh hsub hinv
  | trigger w rest hif2 hpop =>
    exact inv_trigger _ w rest hif2 hpop hinv
  | complete r i hin =>
    exact inv_complete _ r i hin hinv

theorem inv_trace (st : SystemState) (evs : List Event) (st' : SystemState)
    (h : Trace st evs st') (hinv : Inv st) : Inv st' := by
  induction h with
  | nil => exact hinv
  | cons st st₁ st₂ e evs hstep htr ih => exact ih (inv_step _ _ _ hstep hinv)

theorem reachable_inv (st : SystemState) (h : Reachable st) : Inv st := by
  obtain ⟨evs, htr⟩ := h
  exact inv_trace _ _ _ htr inv_init

/-- C4: Submit fails with a ValidationError exactly when the identifier list
is empty or some identifier lies outside `[1, MAX_ID_VALUE]`; the out-of-range
error names the offending value and the valid bounds; on any failure the
returned state is the input state unchanged (neither Registry nor queue is
touched), and on success the request is registered with all its
ceil(n/BATCH_SIZE) batches and exactly one Work Item per batch is queued —
all or nothing. -/
theorem submit_validation (st : SystemState) (reqId : Nat) (ids : List Nat)
    (p : Priority) (now : Nat) :
    ((∃ e, (submit st reqId ids p now).2 = Except.error e) ↔
      ids = [] ∨ ∃ v ∈ ids, v < 1 ∨ MAX_ID_VALUE < v) ∧
    (∀ v lo hi, (submit st reqId ids p now).2 =
        Except.error (SubmitError.outOfRange v lo hi) →
      v ∈ ids ∧ (v < 1 ∨ MAX_ID_VALUE < v) ∧ lo = 1 ∧ hi = MAX_ID_VALUE) ∧
    (∀ e, (submit st reqId ids p now).2 = Except.error e →
      (submit st reqId ids p now).1 = st) ∧
    (∀ rid, (submit st reqId ids p now).2 = Except.ok rid →
      (submit st reqId ids p now).1.registry =
        st.registry ++ [IngestionRequest.mk reqId p now (mkBatches 0 (chunkList ids))] ∧
      (mkBatches 0 (chunkList ids)).length =
        (ids.length + (BATCH_SIZE - 1)) / BATCH_SIZE ∧
      (submit st reqId ids p now).1.queue =
        st.queue ++ mkItems p now reqId (mkBatches 0 (chunkList ids)) ∧
      (mkItems p now reqId (mkBatches 0 (chunkList ids))).length =
        (mkBatches 0 (chunkList ids)).length) := by
  unfold submit
  by_cases he : ids = []
  · rw [if_pos he]
    refine ⟨⟨fun _ => Or.inl he, fun _ => ⟨SubmitError.emptyIds, rfl⟩⟩, ?_, ?_, ?_⟩
    · intro v lo hi hv
      cases hv
    · intro e _
      rfl
    · intro rid hr
      cases hr
  · rw [if_neg he]
    cases hf : ids.find? (fun v => decide (v < 1 ∨ MAX_ID_VALUE < v)) with
    | some v =>
      have hvm : v ∈ ids := List.mem_of_find?_eq_some hf
      have hvp : v < 1 ∨ MAX_ID_VALUE < v := by
        have h1 := List.find?_some hf
        exact of_decide_eq_true h1
      refine ⟨⟨fun _ => Or.inr ⟨v, hvm, hvp⟩,
        fun _ => ⟨SubmitError.outOfRange v 1 MAX_ID_VALUE, rfl⟩⟩, ?_, ?_, ?_⟩
      · intro v' lo hi hv
        simp only [Except.error.injEq, SubmitError.outOfRange.injEq] at hv
        obtain ⟨hv1, hv2, hv3⟩ := hv
        rw [← hv1, ← hv2, ← hv3]
        exact ⟨hvm, hvp, rfl, rfl⟩
      · intro e _
        rfl
      · intro rid hr
        cases hr
    | none =>
      have hnone : ∀ v ∈ ids, ¬(v < 1 ∨ MAX_ID_VALUE < v) := by
        intro v hv
        have h1 := List.find?_eq_none.mp hf v hv
        simpa using h1
      refine ⟨⟨?_, ?_⟩, ?_, ?_, ?_⟩
      · intro hex
        obtain ⟨e, hee⟩ := hex
        cases hee
      · intro hor
        rcases hor with hor | ⟨v, hv, hvp⟩
        · exact absurd hor he
        · exact absurd hvp (hnone v hv)
      · intro v lo hi hv
        cases hv
      · intro e hee
        cases hee
      · intro rid _
        refine ⟨rfl, ?_, rfl, ?_⟩
        · rw [mkBatches_length, chunkList_length]
        · unfold mkItems
          rw [List.length_map]

/-- Witness for C4: the spec scenario ids = [1, 10^9 + 8] fails with a
ValidationError and leaves the state untouched. -/
theorem submit_validation_witness :
    (∃ e, (submit initState 7 [1, 10 ^ 9 + 8] Priority.MEDIUM 0).2 = Except.error e) ∧
    (submit initState 7 [1, 10 ^ 9 + 8] Priority.MEDIUM 0).1 = initState := by
  have h := submit_validation initState 7 [1, 10 ^ 9 + 8] Priority.MEDIUM 0
  have hex : ∃ e, (submit initState 7 [1, 10 ^ 9 + 8] Priority.MEDIUM 0).2 =
      Except.error e :=
    h.1.mpr (Or.inr ⟨10 ^ 9 + 8, by decide, by decide⟩)
  obtain ⟨e, hee⟩ := hex
  exact ⟨⟨e, hee⟩, h.2.2.1 e hee⟩

/-- C5: for every reachable state and every registered request, the derived
overall status is YET_TO_START exactly when every batch is YET_TO_START,
COMPLETED exactly when every batch is COMPLETED, and TRIGGERED otherwise; it
is computed on read by `overallStatus` and stored nowhere in the state. -/
theorem overall_status_characterization (st : SystemState) (req : IngestionRequest)
    (hreach : Reachable st) (hmem : req ∈ st.registry) :
    (overallStatus req = IngestionOverallStatus.YET_TO_START ↔
      ∀ b ∈ req.batches, b.status = BatchStatus.YET_TO_START) ∧
    (overallStatus req = IngestionOverallStatus.COMPLETED ↔
      ∀ b ∈ req.batches, b.status = BatchStatus.COMPLETED) ∧
    ((¬ ∀ b ∈ req.batches, b.status = BatchStatus.YET_TO_START) →
      (¬ ∀ b ∈ req.batches, b.status = BatchStatus.COMPLETED) →
      overallStatus req = IngestionOverallStatus.TRIGGERED) := by
  have hne : req.batches ≠ [] := (reachable_inv st hreach).regNe req hmem
  obtain ⟨b0, hb0⟩ := List.exists_mem_of_ne_nil req.batches hne
  unfold overallStatus
  by_cases h1 : ∀ b ∈ req.batches, b.status = BatchStatus.YET_TO_START
  · have hb1 : req.batches.all (fun b => b.status == BatchStatus.YET_TO_START) = true := by
      rw [List.all_eq_true]
      intro b hb
      simp [h1 b hb]
    rw [if_pos hb1]
    have h2 : ¬ ∀ b ∈ req.batches, b.status = BatchStatus.COMPLETED := by
      intro hc
      have hx := h1 b0 hb0
      have hy := hc b0 hb0
      rw [hx] at hy
      cases hy
    exact ⟨⟨fun _ => h1, fun _ => rfl⟩,
      ⟨fun hc => (nomatch hc), fun hc => absurd hc h2⟩,
      fun hc _ => absurd h1 hc⟩
  · have hb1 : req.batches.all (fun b => b.status == BatchStatus.YET_TO_START) = false := by
      rw [Bool.eq_false_iff]
      intro hc
      apply h1
      intro b hb
      have := List.all_eq_true.mp hc b hb
      simpa using this
    rw [hb1]
    simp only [Bool.false_eq_true, if_false]
    by_cases h2 : ∀ b ∈ req.batches, b.status = BatchStatus.COMPLETED
    · have hb2 : req.batches.all (fun b => b.status == BatchStatus.COMPLETED) = true := by
        rw [List.all_eq_true]
        intro b hb
        simp [h2 b hb]
      rw [if_pos hb2]
      exact ⟨⟨fun hc => (nomatch hc), fun hc => absurd hc h1⟩,
        ⟨fun _ => h2, fun _ => rfl⟩,
        fun _ hc => absurd h2 hc⟩
    · have hb2 : req.batches.all (fun b => b.status == BatchStatus.COMPLETED) = false := by
        rw [Bool.eq_false_iff]
        intro hc
        apply h2
        intro b hb
        have := List.all_eq_true.mp hc b hb
        simpa using this
      rw [hb2]
      simp only [Bool.false_eq_true, if_false]
      exact ⟨⟨fun hc => (nomatch hc), fun hc => absurd hc h1⟩,
        ⟨fun hc => (nomatch hc), fun hc => absurd hc h2⟩,
        fun _ _ => trivial⟩

/-- The position of a batch status along the monotonic lifecycle
YET_TO_START → TRIGGERED → COMPLETED. -/
def statusRank : BatchStatus → Nat
  | BatchStatus.YET_TO_START => 0
  | BatchStatus.TRIGGERED => 1
  | BatchStatus.COMPLETED => 2

theorem lstep_mono (st st' : SystemState) (e : Event) (hinv : Inv st)
    (hstep : LStep st e st') (r i : Nat) (s s' : BatchStatus)
    (hs : batchStatusOf st.registry r i = some s)
    (hs' : batchStatusOf st'.registry r i = some s') :
    s' = s ∨ (s = BatchStatus.YET_TO_START ∧ s' = BatchStatus.TRIGGERED) ∨
      (s = BatchStatus.TRIGGERED ∧ s' = BatchStatus.COMPLETED) := by
  cases hstep with
  | submitOk reqId ids p now stB hfresh hsub =>
    obtain ⟨-, -, -, hshape⟩ := submit_ok_shape st reqId ids p now st' reqId hsub
    subst hshape
    left
    have hsome : (lookupReq st.registry r).isSome := by
      unfold batchStatusOf at hs
      cases hl : lookupReq st.registry r with
      | none => rw [hl] at hs; cases hs
      | some req => rfl
    have hs'' : batchStatusOf (st.registry ++
        [IngestionRequest.mk reqId p now (mkBatches 0 (chunkList ids))]) r i =
        some s' := hs'
    rw [batchStatusOf_append_left _ _ _ _ hsome] at hs''
    rw [hs] at hs''
    exact Option.some.inj hs''.symm
  | trigger w rest hif2 hpop =>
    have hs'' : batchStatusOf (setStatus st.registry w.ingestionId w.index
        BatchStatus.TRIGGERED) r i = some s' := hs'
    by_cases hri : r = w.ingestionId ∧ i = w.index
    · obtain ⟨hr1, hi1⟩ := hri
      subst hr1
      subst hi1
      have hperm := popNext_perm _ _ _ hpop
      have hwq : w ∈ st.queue := hperm.mem_iff.mp (List.mem_cons_self _ _)
      have hyts := hinv.queueYTS w hwq
      have hsY : s = BatchStatus.YET_TO_START := by
        rw [hyts] at hs
        exact (Option.some.inj hs).symm
      have hsome : (batchStatusOf st.registry w.ingestionId w.index).isSome := by
        rw [hyts]
        rfl
      have hset := batchStatusOf_setStatus_self st.registry w.ingestionId w.index
        BatchStatus.TRIGGERED hsome
      rw [hset] at hs''
      exact Or.inr (Or.inl ⟨hsY, (Option.some.inj hs'').symm⟩)
    · left
      rw [batchStatusOf_setStatus_ne _ _ _ _ _ _ hri] at hs''
      rw [hs] at hs''
      exact Option.some.inj hs''.symm
  | complete rr ii hin =>
    have hs'' : batchStatusOf (setStatus st.registry rr ii
        BatchStatus.COMPLETED) r i = some s' := hs'
    by_cases hri : r = rr ∧ i = ii
    · obtain ⟨hr1, hi1⟩ := hri
      subst hr1
      subst hi1
      obtain ⟨htrig, -⟩ := hinv.inflightTrig r i hin
      have hsT : s = BatchStatus.TRIGGERED := by
        rw [htrig] at hs
        exact (Option.some.inj hs).symm
      have hsome : (batchStatusOf st.registry r i).isSome := by
        rw [htrig]
        rfl
      have hset := batchStatusOf_setStatus_self st.registry r i
        BatchStatus.COMPLETED hsome
      rw [hset] at hs''
      exact Or.inr (Or.inr ⟨hsT, (Option.some.inj hs'').symm⟩)
    · left
      rw [batchStatusOf_setStatus_ne _ _ _ _ _ _ hri] at hs''
      rw [hs] at hs''
      exact Option.some.inj hs''.symm

/-- C6: along every step of the system from a reachable state, each batch
status either stays put or advances exactly one stage along
YET_TO_START → TRIGGERED → COMPLETED: the rank never decreases (no reversal)
and increases by at most one (no skipping), and in particular a COMPLETED →
TRIGGERED transition is impossible. -/
theorem batch_status_monotonic (st st' : SystemState) (e : Event)
    (hreach : Reachable st) (hstep : LStep st e st') (r i : Nat)
    (s s' : BatchStatus)
    (hs : batchStatusOf st.registry r i = some s)
    (hs' : batchStatusOf st'.registry r i = some s') :
    statusRank s ≤ statusRank s' ∧ statusRank s' ≤ statusRank s + 1 ∧
      ¬(s = BatchStatus.COMPLETED ∧ s' = BatchStatus.TRIGGERED) := by
  have hinv := reachable_inv st hreach
  rcases lstep_mono st st' e hinv hstep r i s s' hs hs' with h | ⟨h1, h2⟩ | ⟨h1, h2⟩
  · subst h
    refine ⟨Nat.le_refl _, Nat.le_succ _, ?_⟩
    intro hc
    rw [hc.1] at hc
    cases hc.2
  · subst h1
    subst h2
    refine ⟨by decide, by decide, ?_⟩
    intro hc
    cases hc.1
  · subst h1
    subst h2
    refine ⟨by decide, by decide, ?_⟩
    intro hc
    cases hc.1

/-- A sample Work Item: first batch of the sample request. -/
def sampleW0 : WorkItem := WorkItem.mk Priority.HIGH 0 1 0 [1, 2, 3]

/-- A sample Work Item: second batch of the sample request. -/
def sampleW1 : WorkItem := WorkItem.mk Priority.HIGH 0 1 1 [4]

/-- The sample request registered by `Submit(ids=[1,2,3,4], HIGH)`. -/
def sampleReq : IngestionRequest := IngestionRequest.mk 1 Priority.HIGH 0
  [Batch.mk 0 [1, 2, 3] BatchStatus.YET_TO_START,
   Batch.mk 1 [4] BatchStatus.YET_TO_START]

/-- The state after submitting ids [1,2,3,4] with priority HIGH at time 0. -/
def sampleState : SystemState := SystemState.mk [sampleReq] [sampleW0, sampleW1] none

/-- Witness for C6: after submitting a request, triggering its first batch
moves that batch from YET_TO_START to TRIGGERED — one stage forward. -/
theorem batch_status_monotonic_witness :
    statusRank BatchStatus.YET_TO_START ≤ statusRank BatchStatus.TRIGGERED ∧
    statusRank BatchStatus.TRIGGERED ≤ statusRank BatchStatus.YET_TO_START + 1 ∧
    ¬(BatchStatus.YET_TO_START = BatchStatus.COMPLETED ∧
      BatchStatus.TRIGGERED = BatchStatus.TRIGGERED) := by
  have hreach : Reachable sampleState :=
    ⟨[Event.submitEv 1 [1, 2, 3, 4] Priority.HIGH 0],
      Trace.cons _ _ _ _ _
        (LStep.submitOk initState 1 [1, 2, 3, 4] Priority.HIGH 0 sampleState rfl rfl)
        (Trace.nil sampleState)⟩
  have hstep : LStep sampleState (Event.triggerEv 1 0)
      (applyTrigger sampleState sampleW0 [sampleW1]) :=
    LStep.trigger sampleState sampleW0 [sampleW1] rfl (by decide)
  exact batch_status_monotonic sampleState
    (applyTrigger sampleState sampleW0 [sampleW1]) (Event.triggerEv 1 0)
    hreach hstep 1 0 BatchStatus.YET_TO_START BatchStatus.TRIGGERED
    (by decide) (by decide)

/-- Witness for C5: the freshly submitted sample request, all of whose batches
are YET_TO_START, has derived overall status YET_TO_START. -/
theorem overall_status_characterization_witness :
    (overallStatus sampleReq = IngestionOverallStatus.YET_TO_START ↔
      ∀ b ∈ sampleReq.batches, b.status = BatchStatus.YET_TO_START) ∧
    overallStatus sampleReq = IngestionOverallStatus.YET_TO_START := by
  have hreach : Reachable sampleState :=
    ⟨[Event.submitEv 1 [1, 2, 3, 4] Priority.HIGH 0],
      Trace.cons _ _ _ _ _
        (LStep.submitOk initState 1 [1, 2, 3, 4] Priority.HIGH 0 sampleState rfl rfl)
        (Trace.nil sampleState)⟩
  have h := overall_status_characterization sampleState sampleReq hreach (by decide)
  exact ⟨h.1, h.1.mpr (by decide)⟩

/-- C8: from any reachable state, GetStatus fails with the NotFound error
exactly when the handle is not registered; otherwise it returns the snapshot
read from the Registry — the handle, the derived overall status, and one
`(index, ids, status)` entry per batch — with entries in strictly ascending
batch-index order.  `getStatus` is a pure read: it returns no modified state,
so the call changes neither queue nor registry. -/
theorem get_status_correct (st : SystemState) (reqId : Nat)
    (hreach : Reachable st) :
    (getStatus st reqId = Except.error "Ingestion ID not found" ↔
      st.findReq reqId = none) ∧
    (∀ snap, getStatus st reqId = Except.ok snap →
      ∃ req, st.findReq reqId = some req ∧ snap.requestId = reqId ∧
        snap.status = overallStatus req ∧
        snap.batches = req.batches.map (fun b => (b.index, b.ids, b.status)) ∧
        (snap.batches.map (fun t => t.1)).Pairwise (· < ·)) := by
  have hinv := reachable_inv st hreach
  unfold getStatus
  cases hl : st.findReq reqId with
  | none =>
    refine ⟨⟨fun _ => rfl, fun _ => rfl⟩, ?_⟩
    intro snap h
    cases h
  | some req =>
    refine ⟨⟨fun h => (nomatch h), fun h => (nomatch h)⟩, ?_⟩
    intro snap h
    have hsnap := (Except.ok.inj h).symm
    refine ⟨req, rfl, ?_, ?_, ?_, ?_⟩
    · rw [hsnap]
    · rw [hsnap]
    · rw [hsnap]
    · rw [hsnap]
      have hmem : req ∈ st.registry := lookupReq_mem st.registry reqId req hl
      have hidx := hinv.regIdx req hmem
      have hcomp : ((req.batches.map (fun b => (b.index, b.ids, b.status))).map
          (fun t => t.1)) = req.batches.map Batch.index := by
        rw [List.map_map]
        rfl
      rw [hcomp, hidx]
      exact List.pairwise_lt_range' 0 req.batches.length

/-- Witness for C8: an unknown handle yields the NotFound error, and the
sample request's handle does not. -/
theorem get_status_correct_witness :
    getStatus initState 5 = Except.error "Ingestion ID not found" ∧
    getStatus sampleState 1 ≠ Except.error "Ingestion ID not found" := by
  have hreach : Reachable sampleState :=
    ⟨[Event.submitEv 1 [1, 2, 3, 4] Priority.HIGH 0],
      Trace.cons _ _ _ _ _
        (LStep.submitOk initState 1 [1, 2, 3, 4] Priority.HIGH 0 sampleState rfl rfl)
        (Trace.nil sampleState)⟩
  have h0 := get_status_correct initState 5 ⟨[], Trace.nil initState⟩
  have h1 := get_status_correct sampleState 1 hreach
  refine ⟨h0.1.mpr rfl, ?_⟩
  intro hc
  have h2 := h1.1.mp hc
  have h3 : sampleState.findReq 1 = some sampleReq := rfl
  rw [h3] at h2
  cases h2

theorem keyLe_index (a b : Nat × Nat × Nat × Nat) (h : keyLe a b)
    (h1 : a.1 = b.1) (h2 : a.2.1 = b.2.1) (h3 : a.2.2.1 = b.2.2.1) :
    a.2.2.2 ≤ b.2.2.2 := by
  obtain ⟨a1, a2, a3, a4⟩ := a
  obtain ⟨b1, b2, b3, b4⟩ := b
  simp only [keyLe, keyLt, Prod.mk.injEq] at h h1 h2 h3 ⊢
  omega

theorem lookupReq_setStatus_isSome (reg : List IngestionRequest) (rr ii : Nat)
    (s : BatchStatus) (r : Nat) (h : (lookupReq reg r).isSome) :
    (lookupReq (setStatus reg rr ii s) r).isSome := by
  rw [lookupReq_setStatus]
  cases hl : lookupReq reg r with
  | none => rw [hl] at h; cases h
  | some req => rfl

/-- Among the remaining queue items of the same request, the popped item has
the strictly smallest batch index: same request means same priority rank,
creation time and ingestion id, so the minimal ordering key forces the
minimal index, and queued pairs are distinct. -/
theorem pop_same_req_lt (st : SystemState) (hinv : Inv st) (w : WorkItem)
    (rest : List WorkItem) (hpop : popNext st.queue = some (w, rest)) :
    ∀ x ∈ rest, x.ingestionId = w.ingestionId → w.index < x.index := by
  intro x hx heq
  have hperm := popNext_perm _ _ _ hpop
  have hwq : w ∈ st.queue := hperm.mem_iff.mp (List.mem_cons_self _ _)
  have hxq : x ∈ st.queue := hperm.mem_iff.mp (List.mem_cons_of_mem _ hx)
  have hkey := popNext_min _ _ _ hpop x hxq
  have hsome : (lookupReq st.registry w.ingestionId).isSome := by
    have h1 := hinv.queueYTS w hwq
    unfold batchStatusOf at h1
    cases hl : lookupReq st.registry w.ingestionId with
    | none => rw [hl] at h1; cases h1
    | some req => rfl
  cases hl : lookupReq st.registry w.ingestionId with
  | none => rw [hl] at hsome; cases hsome
  | some req =>
    obtain ⟨hp1, ht1⟩ := hinv.queueMeta w hwq req hl
    have hl2 : lookupReq st.registry x.ingestionId = some req := by rw [heq, hl]
    obtain ⟨hp2, ht2⟩ := hinv.queueMeta x hxq req hl2
    have hidxle : w.index ≤ x.index := by
      refine keyLe_index (orderKey w) (orderKey x) hkey ?_ ?_ ?_
      · show priorityRank w.priority = priorityRank x.priority
        rw [hp1, hp2]
      · show w.createdAt = x.createdAt
        rw [ht1, ht2]
      · show w.ingestionId = x.ingestionId
        rw [heq]
    have hne : w.index ≠ x.index := by
      intro hc
      have hpairs : ((w :: rest).map (fun y => (y.ingestionId, y.index))).Nodup :=
        ((hperm.map _).nodup_iff).mpr hinv.queueNodup
      simp only [List.map_cons, List.nodup_cons] at hpairs
      apply hpairs.1
      have hpw : (w.ingestionId, w.index) = (x.ingestionId, x.index) := by
        rw [heq, hc]
      rw [hpw]
      exact List.mem_map_of_mem _ hx
    exact Nat.lt_of_le_of_ne hidxle hne

/-- The batch indices of request `r` triggered along an event sequence, in
order of occurrence. -/
def trigIdx (r : Nat) : List Event → List Nat
  | [] => []
  | Event.triggerEv rr i :: evs =>
      if rr = r then i :: trigIdx r evs else trigIdx r evs
  | Event.submitEv _ _ _ _ :: evs => trigIdx r evs
  | Event.completeEv _ _ :: evs => trigIdx r evs

theorem trace_trig_lower : ∀ (st : SystemState) (evs : List Event)
    (stF : SystemState), Trace st evs stF → Inv st →
    ∀ (r : Nat), (lookupReq st.registry r).isSome →
    ∀ (i : Nat), (∀ w ∈ st.queue, w.ingestionId = r → i < w.index) →
    ∀ j ∈ trigIdx r evs, i < j := by
  intro st evs stF htr
  induction htr with
  | nil =>
    intro hinv r hreg i hbound j hj
    cases hj
  | cons stA st₁ st₂ e evs hstep htrB ih =>
    intro hinv r hreg i hbound j hj
    have hinv1 := inv_step _ _ _ hstep hinv
    cases hstep with
    | submitOk reqId ids p now stB hfresh hsub =>
      obtain ⟨-, -, -, hshape⟩ := submit_ok_shape stA reqId ids p now st₁ reqId hsub
      have hj' : j ∈ trigIdx r evs := hj
      have hrneq : reqId ≠ r := by
        intro hc
        cases hlr : lookupReq stA.registry r with
        | none => rw [hlr] at hreg; cases hreg
        | some req =>
          have hids := (lookupReq_eq_none stA.registry reqId).mp hfresh
          exact hids req (lookupReq_mem _ _ _ hlr)
            ((lookupReq_some_id _ _ _ hlr).trans hc.symm)
      refine ih hinv1 r ?_ i ?_ j hj'
      · rw [hshape]
        show (lookupReq (stA.registry ++
          [IngestionRequest.mk reqId p now (mkBatches 0 (chunkList ids))]) r).isSome
        cases hlr : lookupReq stA.registry r with
        | none => rw [hlr] at hreg; cases hreg
        | some req =>
          rw [lookupReq_append_left _ _ _ _ hlr]
          rfl
      · intro w hw hwr
        rw [hshape] at hw
        have hw' : w ∈ stA.queue ++
            mkItems p now reqId (mkBatches 0 (chunkList ids)) := hw
        rcases List.mem_append.mp hw' with hw2 | hw2
        · exact hbound w hw2 hwr
        · obtain ⟨-, -, hr', -⟩ :=
            mkItems_mem p now reqId (mkBatches 0 (chunkList ids)) w hw2
          exact absurd (hr' ▸ hwr) hrneq
    | trigger w rest hif2 hpop =>
      have hwSome : (lookupReq stA.registry w.ingestionId).isSome := by
        have hwq : w ∈ stA.queue :=
          (popNext_perm _ _ _ hpop).mem_iff.mp (List.mem_cons_self _ _)
        have h1 := hinv.queueYTS w hwq
        unfold batchStatusOf at h1
        cases hl : lookupReq stA.registry w.ingestionId with
        | none => rw [hl] at h1; cases h1
        | some req => rfl
      have hregSome : (lookupReq stA.registry r).isSome := hreg
      have hreg1 : (lookupReq (setStatus stA.registry w.ingestionId w.index
          BatchStatus.TRIGGERED) r).isSome :=
        lookupReq_setStatus_isSome _ _ _ _ _ hregSome
      have hbound1 : ∀ x ∈ rest, x.ingestionId = r → i < x.index := by
        intro x hx hxr
        exact hbound x
          ((popNext_perm _ _ _ hpop).mem_iff.mp (List.mem_cons_of_mem _ hx)) hxr
      by_cases hwr : w.ingestionId = r
      · have heq : trigIdx r (Event.triggerEv w.ingestionId w.index :: evs) =
            w.index :: trigIdx r evs := by
          simp [trigIdx, hwr]
        rw [heq] at hj
        rcases List.mem_cons.mp hj with hj1 | hj1
        · subst hj1
          have hwq : w ∈ stA.queue :=
            (popNext_perm _ _ _ hpop).mem_iff.mp (List.mem_cons_self _ _)
          exact hbound w hwq hwr
        · exact ih hinv1 r hreg1 i hbound1 j hj1
      · have heq : trigIdx r (Event.triggerEv w.ingestionId w.index :: evs) =
            trigIdx r evs := by
          simp [trigIdx, hwr]
        rw [heq] at hj
        exact ih hinv1 r hreg1 i hbound1 j hj
    | complete rr ii hin =>
      have hj' : j ∈ trigIdx r evs := hj
      refine ih hinv1 r ?_ i ?_ j hj'
      · exact lookupReq_setStatus_isSome _ _ _ _ _ hreg
      · intro x hx hxr
        exact hbound x hx hxr

theorem trace_trig_pairwise : ∀ (st : SystemState) (evs : List Event)
    (stF : SystemState), Trace st evs stF → Inv st →
    ∀ (r : Nat), List.Pairwise (fun a b => a < b) (trigIdx r evs) := by
  intro st evs stF htr
  induction htr with
  | nil =>
    intro hinv r
    exact List.Pairwise.nil
  | cons stA st₁ st₂ e evs hstep htrB ih =>
    intro hinv r
    have hinv1 := inv_step _ _ _ hstep hinv
    cases hstep with
    | submitOk reqId ids p now hfresh hsub =>
      have h := ih hinv1 r
      exact h
    | trigger w rest hif2 hpop =>
      by_cases hwr : w.ingestionId = r
      · have heq : trigIdx r (Event.triggerEv w.ingestionId w.index :: evs) =
            w.index :: trigIdx r evs := by
          simp [trigIdx, hwr]
        rw [heq]
        refine List.Pairwise.cons ?_ (ih hinv1 r)
        intro j hj
        have hwq : w ∈ stA.queue :=
          (popNext_perm _ _ _ hpop).mem_iff.mp (List.mem_cons_self _ _)
        have hwSome : (lookupReq stA.registry w.ingestionId).isSome := by
          have h1 := hinv.queueYTS w hwq
          unfold batchStatusOf at h1
          cases hl : lookupReq stA.registry w.ingestionId with
          | none => rw [hl] at h1; cases h1
          | some req => rfl
        refine trace_trig_lower _ _ _ htrB hinv1 r ?_ w.index ?_ j hj
        · show (lookupReq (setStatus stA.registry w.ingestionId w.index
            BatchStatus.TRIGGERED) r).isSome
          refine lookupReq_setStatus_isSome _ _ _ _ _ ?_
          rw [← hwr]
          exact hwSome
        · intro x hx hxr
          exact pop_same_req_lt stA hinv w rest hpop x hx (hxr.trans hwr.symm)
      · have heq : trigIdx r (Event.triggerEv w.ingestionId w.index :: evs) =
            trigIdx r evs := by
          simp [trigIdx, hwr]
        rw [heq]
        exact ih hinv1 r
    | complete rr ii hin =>
      exact ih hinv1 r

/-- C7: in every run of the system from process start, the batches of any
single ingestion request reach TRIGGERED in strictly ascending order of their
`index` field, however submissions and steps of other requests are
interleaved. -/
theorem request_triggers_ascending (evs : List Event) (st : SystemState)
    (htr : Trace initState evs st) (r : Nat) :
    List.Pairwise (fun a b => a < b) (trigIdx r evs) :=
  trace_trig_pairwise initState evs st htr inv_init r

/-- Witness for C7: a run that submits the sample request (two batches),
triggers batch 0, completes it, then triggers batch 1 — the triggered indices
of request 1 are [0, 1], strictly ascending. -/
theorem request_triggers_ascending_witness :
    List.Pairwise (fun a b => a < b)
      (trigIdx 1 [Event.submitEv 1 [1, 2, 3, 4] Priority.HIGH 0,
        Event.triggerEv 1 0, Event.completeEv 1 0, Event.triggerEv 1 1]) := by
  have htr : Trace initState
      [Event.submitEv 1 [1, 2, 3, 4] Priority.HIGH 0,
        Event.triggerEv 1 0, Event.completeEv 1 0, Event.triggerEv 1 1]
      (applyTrigger (applyComplete (applyTrigger sampleState sampleW0 [sampleW1]) 1 0)
        sampleW1 []) := by
    refine Trace.cons _ _ _ _ _
      (LStep.submitOk initState 1 [1, 2, 3, 4] Priority.HIGH 0 sampleState rfl rfl) ?_
    refine Trace.cons _ _ _ _ _
      (LStep.trigger sampleState sampleW0 [sampleW1] rfl (by decide)) ?_
    refine Trace.cons _ _ _ _ _
      (LStep.complete (applyTrigger sampleState sampleW0 [sampleW1]) 1 0 rfl) ?_
    refine Trace.cons _ _ _ _ _
      (LStep.trigger (applyComplete (applyTrigger sampleState sampleW0 [sampleW1]) 1 0)
        sampleW1 [] rfl (by decide)) ?_
    exact Trace.nil _
  exact request_triggers_ascending _ _ htr 1

end Ingestion

namespace Ingestion

/-- C9: in the code as written, every `Priority` member's string value equals
its own member name; lexicographically these values sort
`"HIGH" < "LOW" < "MEDIUM"`, so ordering members by their string values places
LOW before MEDIUM, while the priority rank for queue placement puts MEDIUM
(rank 1) before LOW (rank 2): string-value order and rank order disagree. -/
theorem priority_string_order_mismatch :
    (∀ p : Priority, p.value = p.memberName) ∧
    Priority.value .HIGH = "HIGH" ∧
    Priority.value .MEDIUM = "MEDIUM" ∧
    Priority.value .LOW = "LOW" ∧
    Priority.value .HIGH < Priority.value .LOW ∧
    Priority.value .LOW < Priority.value .MEDIUM ∧
    priorityRank .MEDIUM < priorityRank .LOW ∧
    ¬ (∀ p q : Priority, p.value < q.value ↔ priorityRank p < priorityRank q) := by
  refine ⟨fun p => by cases p <;> rfl, rfl, rfl, rfl,
    by rw [String.lt_iff_toList_lt]; decide,
    by rw [String.lt_iff_toList_lt]; decide, by decide, ?_⟩
  intro h
  have hlm := (h .LOW .MEDIUM).mp (by rw [String.lt_iff_toList_lt]; decide)
  exact absurd hlm (by decide)

/-- C10: the three `BatchStatus` members carry the pairwise-distinct lowercase
string values `"yet_to_start"`, `"triggered"`, `"completed"`, each different
from its uppercase member name, and every `BatchStatus` value is one of those
three lowercase strings. -/
theorem batchStatus_values_lowercase_distinct :
    BatchStatus.value .YET_TO_START = "yet_to_start" ∧
    BatchStatus.value .TRIGGERED = "triggered" ∧
    BatchStatus.value .COMPLETED = "completed" ∧
    BatchStatus.value .YET_TO_START ≠ BatchStatus.value .TRIGGERED ∧
    BatchStatus.value .YET_TO_START ≠ BatchStatus.value .COMPLETED ∧
    BatchStatus.value .TRIGGERED ≠ BatchStatus.value .COMPLETED ∧
    (∀ s : BatchStatus, s.value ≠ s.memberName) ∧
    (∀ s : BatchStatus, s.value = "yet_to_start" ∨ s.value = "triggered" ∨
      s.value = "completed") := by
  refine ⟨rfl, rfl, rfl, by decide, by decide, by decide, fun s => ?_, fun s => ?_⟩
  · cases s <;> decide
  · cases s with
    | YET_TO_START => exact Or.inl rfl
    | TRIGGERED => exact Or.inr (Or.inl rfl)
    | COMPLETED => exact Or.inr (Or.inr rfl)

end Ingestion
